import Mathlib

/-!
Verification of the generic prefix-tree container `Trie<Alphabet, Value>`
implemented in `src/trie.h`.  The data model and each operation are embedded
shallowly: nodes become an inductive tree, the imperative in-place updates
become functional updates of the corresponding child slot, and the two
`std::out_of_range` throws become `Except.error` results carrying the same
message strings.
-/

set_option maxHeartbeats 1000000

namespace TrieH

/-- Embedding of the template parameter `Alphabet` of `Trie<Alphabet, Value>`
(src/trie.h): a fixed number of symbols `size` and a mapping `ord` from
characters to slot indices, with `-1` as the "not a member" sentinel. -/
structure Alphabet where
  size : Nat
  ord : Char → Int

/-- The documented contract of `Alphabet::ord`: every character either is not
a member (`ord = -1`) or is mapped into the slot range `[0, size)`. -/
def Alphabet.ordRange (A : Alphabet) : Prop :=
  ∀ c : Char, A.ord c = -1 ∨ (0 ≤ A.ord c ∧ A.ord c < (A.size : Int))

/-- Embedding of `Trie<Alphabet, Value>::Node` (src/trie.h lines 19-122).
`children` models `std::array<std::unique_ptr<Node>, Alphabet::size>` as a
list of `Alphabet.size` slots with `none` for a null `unique_ptr`; `value`
models the owned `std::unique_ptr<Value> value_`; `key` models `char key_`.
The non-owning `parent_` back pointer is not stored: a functional tree
determines each node's parent from its position, and the two places that
consult `parent_` (the root test in `getItems` and the stop condition of the
removal cascade) are modelled by making that positional information explicit. -/
inductive Node (V : Type) : Type where
  | mk (children : List (Option (Node V))) (value : Option V) (key : Char)

namespace Node

/-- The `children_` field. -/
def children {V : Type} : Node V → List (Option (Node V))
  | .mk cs _ _ => cs

/-- The `value_` field (`Node::value` accessor, src/trie.h line 46). -/
def value {V : Type} : Node V → Option V
  | .mk _ v _ => v

/-- The `key_` field. -/
def key {V : Type} : Node V → Char
  | .mk _ _ k => k

@[simp] theorem children_mk {V : Type} (cs : List (Option (Node V))) (v : Option V) (k : Char) :
    (Node.mk cs v k).children = cs := rfl

@[simp] theorem value_mk {V : Type} (cs : List (Option (Node V))) (v : Option V) (k : Char) :
    (Node.mk cs v k).value = v := rfl

@[simp] theorem key_mk {V : Type} (cs : List (Option (Node V))) (v : Option V) (k : Char) :
    (Node.mk cs v k).key = k := rfl

/-- `Node::hasValue` (src/trie.h lines 64-66). -/
def hasValue {V : Type} (n : Node V) : Bool :=
  n.value.isSome

/-- `Node::hasChildren` (src/trie.h lines 68-75): some slot is non-null. -/
def hasChildren {V : Type} (n : Node V) : Bool :=
  n.children.any (fun o => o.isSome)

end Node

/-- The scan performed by `Node::child` (src/trie.h lines 29-40): walk the
slots in order and return the first non-null child labelled `c`, here paired
with its slot index.  The index is where the imperative code's in-place
mutation of that child happens, and it is the slot `Node::removeChild`
(a pointer-identity scan, src/trie.h lines 88-96) nulls out.  The source
`child` first throws when `ord(letter) == -1`; every `Trie` member validates
the whole key with `isKeyCorrect` before traversing, so the embedding keeps
the scan total and models the alphabet check at those call sites. -/
def childIdx {V : Type} : List (Option (Node V)) → Char → Option (Nat × Node V)
  | [], _ => none
  | none :: rest, c => (childIdx rest c).map (fun p => (p.1 + 1, p.2))
  | some m :: rest, c =>
      if m.key = c then some (0, m)
      else (childIdx rest c).map (fun p => (p.1 + 1, p.2))

/-- `Node::child` without the slot index: the first non-null child labelled
`c`, or `none`. -/
def Node.child {V : Type} (n : Node V) (c : Char) : Option (Node V) :=
  (childIdx n.children c).map (fun p => p.2)

/-- Embedding of `Node::getPath` (src/trie.h lines 107-121): the sequence of
visited nodes starting with the receiver; when a child is missing, a final
`none` marker is appended and the walk stops early. -/
def Node.getPath {V : Type} : Node V → List Char → List (Option (Node V))
  | n, [] => [some n]
  | n, c :: rest =>
      match n.child c with
      | none => [some n, none]
      | some m => some n :: m.getPath rest

/-- The node reached from `n` by following the whole of `key`, if it exists:
this is the value of `getPath(key).back()` (proved below as
`getPath_getLast`), used to state properties of the traversal. -/
def Node.nodeAt {V : Type} : Node V → List Char → Option (Node V)
  | n, [] => some n
  | n, c :: rest =>
      match n.child c with
      | none => none
      | some m => m.nodeAt rest

/-- The value held at the end of `key` below `n`, if any. -/
def Node.valueAt {V : Type} (n : Node V) (k : List Char) : Option V :=
  (n.nodeAt k).bind Node.value

/-- The node allocated by `Node::createChild` (src/trie.h lines 81-86): a
fresh slot array of `size` nulls, no value, labelled `c`.  `createChild`
then stores it at slot `ord(c)` of its parent; the embedding performs that
store with `List.set` at the call sites, as the imperative code does it in
place. -/
def newNode (V : Type) (A : Alphabet) (c : Char) : Node V :=
  .mk (List.replicate A.size none) none c

/-- A default-constructed `Node` (src/trie.h lines 23-24): all slots null, no
value, and `key_` value-initialized to `char 0`. -/
def emptyNode (V : Type) (A : Alphabet) : Node V :=
  .mk (List.replicate A.size none) none (Char.ofNat 0)

/-- `Trie<Alphabet, Value>` owns exactly its root node (src/trie.h line 125). -/
structure Trie (V : Type) where
  root : Node V

/-- A default-constructed `Trie` (src/trie.h line 202). -/
def emptyTrie (V : Type) (A : Alphabet) : Trie V :=
  ⟨emptyNode V A⟩

/-- `Trie::isInAlphabet` (src/trie.h lines 169-171). -/
def isInAlphabet (A : Alphabet) (c : Char) : Bool :=
  decide (A.ord c ≠ -1)

/-- `Trie::isKeyCorrect` (src/trie.h lines 173-180): every letter of the key
is an alphabet member. -/
def isKeyCorrect (A : Alphabet) (k : List Char) : Bool :=
  k.all (isInAlphabet A)

/-- The traversal loop of `Trie::insert` (src/trie.h lines 277-291): walk the
key, stepping to the existing child when the `child` scan finds one and
otherwise creating one at slot `ord(c)`; at the terminal node install the
value only if none is present.  Returns `insert`'s boolean result together
with the updated subtree (the imperative code updates the same nodes in
place, so the write-back happens at the slot the scan found). -/
def insertGo {V : Type} (A : Alphabet) (v : V) : Node V → List Char → Bool × Node V
  | n, [] =>
      if n.value.isSome then (false, n)
      else (true, Node.mk n.children (some v) n.key)
  | n, c :: rest =>
      match childIdx n.children c with
      | some p =>
          let r := insertGo A v p.2 rest
          (r.1, Node.mk (n.children.set p.1 (some r.2)) n.value n.key)
      | none =>
          let r := insertGo A v (newNode V A c) rest
          (r.1, Node.mk (n.children.set (A.ord c).toNat (some r.2)) n.value n.key)

/-- The mutation performed by `Trie::remove` (src/trie.h lines 258-270) when
the key's path fully exists, transposed from the walk over the reversed
`getPath` result to recursion on the key: at the terminal node the value is
cleared (`removeNode->removeValue()`), and on the way back toward the root a
node that now has no value, no children and a parent is detached from its
parent (`node->parent_->removeChild(node)`); the cascade stops at the first
node that keeps a value or a child, and the root — the node with no parent,
the top call here — is always kept, matching `!node->hasParent()`. -/
def removeGo {V : Type} : Node V → List Char → Node V
  | n, [] => Node.mk n.children none n.key
  | n, c :: rest =>
      match childIdx n.children c with
      | none => n
      | some p =>
          let m := removeGo p.2 rest
          if m.hasValue || m.hasChildren then
            Node.mk (n.children.set p.1 (some m)) n.value n.key
          else
            Node.mk (n.children.set p.1 none) n.value n.key

/-- `Trie::empty` (src/trie.h lines 217-219). -/
def Trie.empty {V : Type} (t : Trie V) : Bool :=
  !(t.root.hasValue || t.root.hasChildren)

/-- `Trie::search` (src/trie.h lines 221-231): reject incorrect keys with the
`"Incorrect key"` error, then return the value pointer of `getPath(key)`'s
last node, or null (`none`) when that last entry is the null marker. -/
def Trie.search {V : Type} (A : Alphabet) (t : Trie V) (k : List Char) :
    Except String (Option V) :=
  if isKeyCorrect A k then
    match (t.root.getPath k).getLast? with
    | some (some m) => .ok m.value
    | _ => .ok none
  else .error "Incorrect key"

/-- `Trie::at` (src/trie.h lines 238-247); named `atKey` because `at` is a
reserved word in Lean.  After the key check, throw `"Key not found!"` when
the path's last node is null or has no value, else return the value. -/
def Trie.atKey {V : Type} (A : Alphabet) (t : Trie V) (k : List Char) :
    Except String V :=
  if isKeyCorrect A k then
    match (t.root.getPath k).getLast? with
    | some (some m) =>
        match m.value with
        | some v => .ok v
        | none => .error "Key not found!"
    | _ => .error "Key not found!"
  else .error "Incorrect key"

/-- `Trie::insert` (src/trie.h lines 273-292).  The result pairs the source's
return (or the thrown error) with the trie after the call; on the error path
the trie is returned unchanged, faithful to the source where the throw is the
first statement, before any mutation. -/
def Trie.insert {V : Type} (A : Alphabet) (t : Trie V) (k : List Char) (v : V) :
    Except String Bool × Trie V :=
  if isKeyCorrect A k then
    let r := insertGo A v t.root k
    (.ok r.1, ⟨r.2⟩)
  else (.error "Incorrect key", t)

/-- `Trie::remove` (src/trie.h lines 254-271).  After the key check, the
source reverses `getPath(key)` and returns at once when the front of the
reversed path (the last entry of the original) is null; otherwise it clears
the terminal value and runs the pruning cascade, modelled by `removeGo`. -/
def Trie.remove {V : Type} (A : Alphabet) (t : Trie V) (k : List Char) :
    Except String Unit × Trie V :=
  if isKeyCorrect A k then
    match (t.root.getPath k).getLast? with
    | some none => (.ok (), t)
    | _ => (.ok (), ⟨removeGo t.root k⟩)
  else (.error "Incorrect key", t)

/-- `Trie::operator[]` (src/trie.h lines 317-327): after the key check, look
the key up with `search`; when absent, `insert(key, Value())` a
default-constructed value and re-read it with `at`; when present, return the
existing value without mutating. -/
def Trie.bracket {V : Type} [Inhabited V] (A : Alphabet) (t : Trie V) (k : List Char) :
    Except String V × Trie V :=
  if isKeyCorrect A k then
    match Trie.search A t k with
    | .ok none =>
        let t1 := (Trie.insert A t k default).2
        (Trie.atKey A t1 k, t1)
    | .ok (some v) => (.ok v, t)
    | .error e => (.error e, t)
  else (.error "Incorrect key", t)

mutual

/-- Embedding of `Trie::getItems` (src/trie.h lines 132-148), instrumented so
that the handling of the key accumulator is visible in the result.  The
`hasPar` flag stands for the source's `node.parent() != nullptr` test (true
for every node except the root).  The frame appends the node's `key_` to the
accumulator when it has a parent, records `(key, value)` when the node holds
a value, folds over the child slots in order, and finally executes
`key.pop_back()` unconditionally.  The result is the collected item list, the
accumulator after the frame, and a flag that is `true` only if every
`pop_back` in the frame and below was applied to a non-empty string
(`pop_back` on an empty `std::string` is undefined behaviour in C++; the
model makes it drop nothing and records the violation in the flag). -/
def itemsSim {V : Type} : Node V → Bool → List Char →
    List (List Char × V) × List Char × Bool
  | .mk cs v k, hasPar, key =>
      let key1 := if hasPar then key ++ [k] else key
      let own := match v with
        | some w => [(key1, w)]
        | none => []
      let r := itemsSimList cs key1
      (own ++ r.1, r.2.1.dropLast, r.2.2 && !r.2.1.isEmpty)

/-- The fold of `getItems` over the child slots (src/trie.h lines 142-146),
threading the key accumulator and the pop-safety flag left to right. -/
def itemsSimList {V : Type} : List (Option (Node V)) → List Char →
    List (List Char × V) × List Char × Bool
  | [], key => ([], key, true)
  | none :: rest, key => itemsSimList rest key
  | some m :: rest, key =>
      let r1 := itemsSim m true key
      let r2 := itemsSimList rest r1.2.1
      (r1.1 ++ r2.1, r2.2.1, r1.2.2 && r2.2.2)

end

/-- `Trie::items` (src/trie.h lines 329-334): run `getItems` from the root
with an empty accumulator and return the collected pairs. -/
def Trie.items {V : Type} (t : Trie V) : List (List Char × V) :=
  (itemsSim t.root false []).1

/-- Whether every `key.pop_back()` performed during `items()` was applied to
a non-empty accumulator. -/
def Trie.itemsPopSafe {V : Type} (t : Trie V) : Bool :=
  (itemsSim t.root false []).2.2

mutual

/-- Embedding of `Trie::copyTrieRec` (src/trie.h lines 188-199): copy the
source node's value when the destination lacks one, then recreate every
non-null source child via `createChild` (a fresh node labelled with the
child's `key_`, installed at slot `ord(key_)`) and recurse into it. -/
def copyRec {V : Type} (A : Alphabet) (dst : Node V) : Node V → Node V
  | .mk cs v _ =>
      let dst1 := if !dst.hasValue && v.isSome then Node.mk dst.children v dst.key else dst
      copyList A dst1 cs

/-- The loop of `copyTrieRec` over the source child slots (src/trie.h lines
193-198). -/
def copyList {V : Type} (A : Alphabet) (dst : Node V) :
    List (Option (Node V)) → Node V
  | [] => dst
  | none :: rest => copyList A dst rest
  | some ch :: rest =>
      let built := copyRec A (newNode V A ch.key) ch
      copyList A
        (Node.mk (dst.children.set (A.ord ch.key).toNat (some built)) dst.value dst.key)
        rest

end

/-- The copy constructor `Trie(const Trie&)` (src/trie.h lines 204-206): a
default-constructed trie into which `copyTrieRec(root_, other.root_)` copies
the other trie.  This models the value content (topology, labels, values) of
the copy constructor only.  `operator=` (lines 208-211) is copy-and-swap
over the same copy constructor; its effect on the `parent_` back-pointers is
not the same as the copy constructor's and is modelled separately below by
`assignA` over the addressed embedding `ANode`, which keeps those pointers. -/
def Trie.copy {V : Type} (A : Alphabet) (t : Trie V) : Trie V :=
  ⟨copyRec A (emptyNode V A) t.root⟩

mutual

/-- Structural well-formedness maintained by the container: every node's slot
array has exactly `size` slots, and a node stored in slot `i` is labelled by
the symbol whose `ord` is `i` (which is how `createChild` installs children). -/
def wfN {V : Type} (A : Alphabet) : Node V → Bool
  | .mk cs _ _ => (cs.length == A.size) && wfL A cs 0

/-- Slot consistency of a slot list whose first slot has absolute index `i`. -/
def wfL {V : Type} (A : Alphabet) : List (Option (Node V)) → Nat → Bool
  | [], _ => true
  | none :: rest, i => wfL A rest (i + 1)
  | some m :: rest, i => (A.ord m.key == (i : Int)) && wfN A m && wfL A rest (i + 1)

end

mutual

/-- Invariant 1 of the spec, guaranteed by the removal cascade: no strict
descendant of this node is simultaneously valueless and childless.  The node
itself is exempt, so applying this to the root states the trie-level
invariant (the root may be a bare empty node). -/
def prunedN {V : Type} : Node V → Bool
  | .mk cs _ _ => prunedL cs

/-- `prunedN` over a slot list. -/
def prunedL {V : Type} : List (Option (Node V)) → Bool
  | [] => true
  | none :: rest => prunedL rest
  | some m :: rest => (m.hasValue || m.hasChildren) && prunedN m && prunedL rest

end

/-! ### The addressed embedding: nodes with object identities and the stored
`parent_` back-pointer

The plain `Node` embedding drops the non-owning `parent_` field because a
functional tree determines each parent positionally.  That is faithful for
every operation except copy assignment: `operator=` (src/trie.h lines
208-211) is copy-and-swap, and `swap(root_, other.root_)` (lines 127-130)
exchanges the members of two `Node` objects that keep their own addresses —
so the stored `parent_` pointers, which hold addresses, can end up
designating the wrong (or a destroyed) object.  To examine that, `ANode`
carries each node's own address and its stored `parent_` value.  Addresses
are abstract identifiers for C++ object identities; the concrete statements
below choose them pairwise distinct, as distinct live objects are. -/

/-- A node together with its object address (`addr`) and the address stored
in its `parent_` field (`parent`, `none` for a null parent pointer). -/
inductive ANode (V : Type) : Type where
  | mk (addr : Nat) (children : List (Option (ANode V))) (value : Option V)
      (key : Char) (parent : Option Nat)

namespace ANode

/-- The node object's own address. -/
def addr {V : Type} : ANode V → Nat
  | .mk a _ _ _ _ => a

/-- The `children_` slots. -/
def children {V : Type} : ANode V → List (Option (ANode V))
  | .mk _ cs _ _ _ => cs

/-- The `value_` field. -/
def value {V : Type} : ANode V → Option V
  | .mk _ _ v _ _ => v

/-- The `key_` field. -/
def key {V : Type} : ANode V → Char
  | .mk _ _ _ k _ => k

/-- The address stored in the `parent_` field. -/
def parent {V : Type} : ANode V → Option Nat
  | .mk _ _ _ _ p => p

/-- The stored `parent_` of the child in slot `i`, if that slot is occupied. -/
def parentOf {V : Type} (n : ANode V) (i : Nat) : Option (Option Nat) :=
  match n.children[i]? with
  | some (some m) => some m.parent
  | _ => none

end ANode

mutual

/-- The back-reference half of the spec's consistency invariant: every child
of every node stores its owner's address as its `parent_`. -/
def parentOkA {V : Type} : ANode V → Bool
  | .mk a cs _ _ _ => parentOkL a cs

/-- `parentOkA` over the slot list of a node at address `a`. -/
def parentOkL {V : Type} (a : Nat) : List (Option (ANode V)) → Bool
  | [] => true
  | none :: rest => parentOkL a rest
  | some m :: rest => (m.parent == some a) && parentOkA m && parentOkL a rest

end

mutual

/-- The addresses of all node objects of a tree (the live objects owned,
directly or transitively, by the node). -/
def addrsA {V : Type} : ANode V → List Nat
  | .mk a cs _ _ _ => a :: addrsL cs

/-- `addrsA` over a slot list. -/
def addrsL {V : Type} : List (Option (ANode V)) → List Nat
  | [] => []
  | none :: rest => addrsL rest
  | some m :: rest => addrsA m ++ addrsL rest

end

mutual

/-- `Trie::copyTrieRec` (src/trie.h lines 188-199) over the addressed
embedding, reading the value content from a plain source tree (the source is
only read, so its addresses are irrelevant): copy the source value when the
destination lacks one, then recreate every non-null source child and
recurse.  `ctr` is the allocator: each `make_unique<Node>(this)` in
`createChild` (lines 81-86) yields a fresh heap object, modelled by handing
out `ctr` and continuing with `ctr + 1`, and stores the creating node's own
address as the child's `parent_`. -/
def copyRecA {V : Type} (A : Alphabet) (dst : ANode V) (ctr : Nat) :
    Node V → ANode V × Nat
  | .mk cs v _ =>
      let dst1 := if !dst.value.isSome && v.isSome then
          ANode.mk dst.addr dst.children v dst.key dst.parent
        else dst
      copyListA A dst1 ctr cs

/-- The loop of `copyTrieRec` over the source child slots: `createChild`
allocates the fresh child at the next address with `parent_ = this` and
installs the recursively copied child at slot `ord(key_)`. -/
def copyListA {V : Type} (A : Alphabet) (dst : ANode V) (ctr : Nat) :
    List (Option (Node V)) → ANode V × Nat
  | [] => (dst, ctr)
  | none :: rest => copyListA A dst ctr rest
  | some ch :: rest =>
      let fresh : ANode V :=
        ANode.mk ctr (List.replicate A.size none) none ch.key (some dst.addr)
      let r := copyRecA A fresh (ctr + 1) ch
      copyListA A
        (ANode.mk dst.addr (dst.children.set (A.ord ch.key).toNat (some r.1))
          dst.value dst.key dst.parent)
        r.2 rest

end

/-- The copy constructor `Trie(const Trie&)` (src/trie.h lines 204-206) over
the addressed embedding: the new trie's `root_` member lives at `rootAddr`
(all slots null, no value, `key_` zero, null parent), and `copyTrieRec`
fills it from `src`, allocating heap nodes from `ctr` on. -/
def copyCtorA {V : Type} (A : Alphabet) (rootAddr ctr : Nat) (src : Node V) :
    ANode V × Nat :=
  copyRecA A (ANode.mk rootAddr (List.replicate A.size none) none (Char.ofNat 0) none)
    ctr src

/-- `Trie::operator=` (src/trie.h lines 208-211) over the addressed
embedding.  The parameter is passed by value, so the copy constructor first
builds a temporary whose `root_` member is a distinct object at `tmpAddr`;
`swap(root_, other.root_)` (lines 127-130) then exchanges the members of the
two root objects — children slots, value, key and parent fields move, but
each root object keeps its own address — and the temporary, now holding the
destination's old members, is destroyed when the operator returns.  The
result is the destination root object (still at `dst.addr`) carrying the
temporary's members; no stored `parent_` of any moved child is updated. -/
def assignA {V : Type} (A : Alphabet) (dst : ANode V) (tmpAddr ctr : Nat)
    (src : Node V) : ANode V × Nat :=
  let tmp := copyCtorA A tmpAddr ctr src
  (ANode.mk dst.addr tmp.1.children tmp.1.value tmp.1.key tmp.1.parent, tmp.2)

/-! ### Basic facts about the child-slot scan -/

theorem childIdx_getElem {V : Type} :
    ∀ {cs : List (Option (Node V))} {c : Char} {i : Nat} {m : Node V},
      childIdx cs c = some (i, m) → cs[i]? = some (some m) ∧ m.key = c := by
  intro cs
  induction cs with
  | nil => intro c i m h; simp [childIdx] at h
  | cons o rest ih =>
    intro c i m h
    cases o with
    | none =>
      simp only [childIdx] at h
      rcases Option.map_eq_some'.mp h with ⟨p, hp, he⟩
      rcases p with ⟨j, m0⟩
      cases he
      have h2 := ih hp
      simpa using h2
    | some m0 =>
      simp only [childIdx] at h
      by_cases hkey : m0.key = c
      · rw [if_pos hkey] at h
        have h2 : (0, m0) = (i, m) := Option.some.inj h
        cases h2
        exact ⟨by simp, hkey⟩
      · rw [if_neg hkey] at h
        rcases Option.map_eq_some'.mp h with ⟨p, hp, he⟩
        rcases p with ⟨j, m1⟩
        cases he
        have h2 := ih hp
        simpa using h2

theorem childIdx_lt_length {V : Type} {cs : List (Option (Node V))} {c : Char}
    {i : Nat} {m : Node V} (h : childIdx cs c = some (i, m)) : i < cs.length := by
  have h2 := (childIdx_getElem h).1
  exact (List.getElem?_eq_some_iff.mp h2).1

/-- Every slot strictly before the one the scan returns fails the scan's
test: it is null or labelled differently. -/
theorem childIdx_first {V : Type} :
    ∀ {cs : List (Option (Node V))} {c : Char} {i : Nat} {m : Node V},
      childIdx cs c = some (i, m) →
      ∀ j, j < i → ∀ (m0 : Node V), cs[j]? = some (some m0) → m0.key ≠ c := by
  intro cs
  induction cs with
  | nil => intro c i m h; simp [childIdx] at h
  | cons o rest ih =>
    intro c i m h j hj m0 hm0
    cases o with
    | none =>
      simp only [childIdx] at h
      rcases Option.map_eq_some'.mp h with ⟨p, hp, he⟩
      rcases p with ⟨k, m1⟩
      cases he
      cases j with
      | zero => simp at hm0
      | succ j0 =>
        have := ih hp j0 (by omega) m0 (by simpa using hm0)
        exact this
    | some m1 =>
      simp only [childIdx] at h
      by_cases hkey : m1.key = c
      · rw [if_pos hkey] at h
        have h2 : (0, m1) = (i, m) := Option.some.inj h
        cases h2
        omega
      · rw [if_neg hkey] at h
        rcases Option.map_eq_some'.mp h with ⟨p, hp, he⟩
        rcases p with ⟨k, m2⟩
        cases he
        cases j with
        | zero =>
          simp only [List.getElem?_cons_zero, Option.some.injEq] at hm0
          exact hm0 ▸ hkey
        | succ j0 =>
          exact ih hp j0 (by omega) m0 (by simpa using hm0)

/-- When the scan fails, no slot holds a node labelled `c`. -/
theorem childIdx_none {V : Type} {c : Char} :
    ∀ {cs : List (Option (Node V))},
      childIdx cs c = none →
      ∀ (j : Nat) (m0 : Node V), cs[j]? = some (some m0) → m0.key ≠ c := by
  intro cs
  induction cs with
  | nil => intro _ j m0 hm0; simp at hm0
  | cons o rest ih =>
    intro h j m0 hm0
    cases o with
    | none =>
      simp only [childIdx, Option.map_eq_none'] at h
      cases j with
      | zero => simp at hm0
      | succ j0 => exact ih h j0 m0 (by simpa using hm0)
    | some m1 =>
      simp only [childIdx] at h
      by_cases hkey : m1.key = c
      · rw [if_pos hkey] at h; simp at h
      · rw [if_neg hkey] at h
        rw [Option.map_eq_none'] at h
        cases j with
        | zero =>
          simp only [List.getElem?_cons_zero, Option.some.injEq] at hm0
          exact hm0 ▸ hkey
        | succ j0 => exact ih h j0 m0 (by simpa using hm0)

/-- Conversely, the scan succeeds as soon as it reaches the first slot
holding a node labelled `c`: writing such a node into slot `i` of a list
whose earlier slots do not pass the test makes the scan return slot `i`. -/
theorem childIdx_set_of_first {V : Type} :
    ∀ {cs : List (Option (Node V))} {c : Char} {i : Nat} {m2 : Node V},
      i < cs.length → m2.key = c →
      (∀ j, j < i → ∀ (m0 : Node V), cs[j]? = some (some m0) → m0.key ≠ c) →
      childIdx (cs.set i (some m2)) c = some (i, m2) := by
  intro cs
  induction cs with
  | nil => intro c i m2 hi; simp at hi
  | cons o rest ih =>
    intro c i m2 hi hkey hfirst
    cases i with
    | zero =>
      simp only [List.set_cons_zero, childIdx, if_pos hkey]
    | succ i0 =>
      have hrec : childIdx (rest.set i0 (some m2)) c = some (i0, m2) := by
        apply ih (by simpa using hi) hkey
        intro j hj m0 hm0
        exact hfirst (j + 1) (by omega) m0 (by simpa using hm0)
      cases o with
      | none =>
        simp only [List.set_cons_succ, childIdx, hrec, Option.map_some']
      | some m1 =>
        have hne : m1.key ≠ c := hfirst 0 (by omega) m1 (by simp)
        simp only [List.set_cons_succ, childIdx, if_neg hne, hrec, Option.map_some']

theorem childIdx_set_found {V : Type} {cs : List (Option (Node V))} {c : Char}
    {i : Nat} {m m2 : Node V} (h : childIdx cs c = some (i, m)) (hkey : m2.key = c) :
    childIdx (cs.set i (some m2)) c = some (i, m2) :=
  childIdx_set_of_first (childIdx_lt_length h) hkey (childIdx_first h)

theorem childIdx_set_of_none {V : Type} {cs : List (Option (Node V))} {c : Char}
    {i : Nat} {m2 : Node V} (h : childIdx cs c = none) (hi : i < cs.length)
    (hkey : m2.key = c) : childIdx (cs.set i (some m2)) c = some (i, m2) :=
  childIdx_set_of_first hi hkey (fun j _ m0 hm0 => childIdx_none h j m0 hm0)

/-- Writing back the very node a slot already holds changes nothing. -/
theorem set_getElem_self {V : Type} :
    ∀ {cs : List (Option (Node V))} {i : Nat} {o : Option (Node V)},
      cs[i]? = some o → cs.set i o = cs := by
  intro cs
  induction cs with
  | nil => intro i o h; simp at h
  | cons o0 rest ih =>
    intro i o h
    cases i with
    | zero =>
      simp only [List.getElem?_cons_zero, Option.some.injEq] at h
      rw [← h]
      simp
    | succ i0 =>
      simp only [List.getElem?_cons_succ] at h
      simp [ih h]

theorem childIdx_replicate {V : Type} (k : Nat) (c : Char) :
    childIdx (List.replicate k (none : Option (Node V))) c = none := by
  induction k with
  | zero => simp [childIdx]
  | succ k0 ih => simp [List.replicate_succ, childIdx, ih]

/-! ### `getPath` and the characterization of its last element -/

theorem getLast?_cons_ne {α : Type} (a : α) (l : List α) (h : l ≠ []) :
    (a :: l).getLast? = l.getLast? := by
  cases l with
  | nil => simp at h
  | cons b t => simp [List.getLast?_cons_cons]

theorem getPath_ne_nil {V : Type} (n : Node V) (k : List Char) : n.getPath k ≠ [] := by
  cases k with
  | nil => simp [Node.getPath]
  | cons c rest =>
    simp only [Node.getPath]
    cases n.child c <;> simp

theorem getPath_getLast {V : Type} :
    ∀ (n : Node V) (k : List Char), (n.getPath k).getLast? = some (n.nodeAt k) := by
  intro n k
  induction k generalizing n with
  | nil => simp [Node.getPath, Node.nodeAt]
  | cons c rest ih =>
    simp only [Node.getPath, Node.nodeAt]
    cases h : n.child c with
    | none => simp
    | some m =>
      rw [getLast?_cons_ne _ _ (getPath_ne_nil m rest)]
      exact ih m

theorem getPath_head {V : Type} (n : Node V) (k : List Char) :
    (n.getPath k).head? = some (some n) := by
  cases k with
  | nil => simp [Node.getPath]
  | cons c rest =>
    simp only [Node.getPath]
    cases n.child c <;> simp

theorem getPath_length_le {V : Type} :
    ∀ (n : Node V) (k : List Char), (n.getPath k).length ≤ k.length + 1 := by
  intro n k
  induction k generalizing n with
  | nil => simp [Node.getPath]
  | cons c rest ih =>
    simp only [Node.getPath]
    cases n.child c with
    | none => simp
    | some m =>
      have := ih m
      simp only [List.length_cons]
      omega

theorem getPath_length_of_isSome {V : Type} :
    ∀ (n : Node V) (k : List Char), (n.nodeAt k).isSome → (n.getPath k).length = k.length + 1 := by
  intro n k
  induction k generalizing n with
  | nil => intro _; simp [Node.getPath]
  | cons c rest ih =>
    intro h
    simp only [Node.nodeAt] at h
    simp only [Node.getPath]
    cases hc : n.child c with
    | none => rw [hc] at h; simp at h
    | some m =>
      rw [hc] at h
      have := ih m h
      simp only [List.length_cons]
      omega

/-! ### Unfolding helpers for the traversal functions -/

@[simp] theorem valueAt_nil {V : Type} (n : Node V) : n.valueAt [] = n.value := rfl

theorem child_eq_of_childIdx {V : Type} {n : Node V} {c : Char} {i : Nat} {m : Node V}
    (h : childIdx n.children c = some (i, m)) : n.child c = some m := by
  simp [Node.child, h]

theorem child_eq_none_of_childIdx {V : Type} {n : Node V} {c : Char}
    (h : childIdx n.children c = none) : n.child c = none := by
  simp [Node.child, h]

theorem valueAt_cons_of_child {V : Type} {n : Node V} {c : Char} {m : Node V}
    (h : n.child c = some m) (rest : List Char) :
    n.valueAt (c :: rest) = m.valueAt rest := by
  simp [Node.valueAt, Node.nodeAt, h]

theorem valueAt_cons_of_none {V : Type} {n : Node V} {c : Char}
    (h : n.child c = none) (rest : List Char) :
    n.valueAt (c :: rest) = none := by
  simp [Node.valueAt, Node.nodeAt, h]

theorem isKeyCorrect_cons {A : Alphabet} {c : Char} {rest : List Char}
    (h : isKeyCorrect A (c :: rest) = true) :
    A.ord c ≠ -1 ∧ isKeyCorrect A rest = true := by
  simp only [isKeyCorrect, List.all_cons, Bool.and_eq_true] at h
  rcases h with ⟨h1, h2⟩
  simp only [isInAlphabet, decide_eq_true_eq] at h1
  exact ⟨h1, h2⟩

/-! ### Well-formedness: slot arrays of the right length, children stored at
the slot `ord` assigns to their label -/

theorem wfN_length {V : Type} {A : Alphabet} {n : Node V} (h : wfN A n = true) :
    n.children.length = A.size := by
  cases n with
  | mk cs v k =>
    simp only [wfN, Bool.and_eq_true, beq_iff_eq] at h
    simpa using h.1

theorem wfN_wfL {V : Type} {A : Alphabet} {n : Node V} (h : wfN A n = true) :
    wfL A n.children 0 = true := by
  cases n with
  | mk cs v k =>
    simp only [wfN, Bool.and_eq_true] at h
    simpa using h.2

theorem wfL_getElem {V : Type} {A : Alphabet} :
    ∀ {cs : List (Option (Node V))} {j i : Nat} {m : Node V},
      wfL A cs j = true → cs[i]? = some (some m) →
      A.ord m.key = ((j + i : Nat) : Int) ∧ wfN A m = true := by
  intro cs
  induction cs with
  | nil => intro j i m _ hm; simp at hm
  | cons o rest ih =>
    intro j i m hwf hm
    cases o with
    | none =>
      simp only [wfL] at hwf
      cases i with
      | zero => simp at hm
      | succ i0 =>
        have := ih hwf (by simpa using hm)
        refine ⟨?_, this.2⟩
        rw [this.1]
        omega
    | some m1 =>
      simp only [wfL, Bool.and_eq_true, beq_iff_eq] at hwf
      cases i with
      | zero =>
        simp only [List.getElem?_cons_zero, Option.some.injEq] at hm
        refine ⟨?_, hm ▸ hwf.1.2⟩
        rw [← hm, hwf.1.1]
        omega
      | succ i0 =>
        have := ih hwf.2 (by simpa using hm)
        refine ⟨?_, this.2⟩
        rw [this.1]
        omega

/-- Overwriting slot `i` with an entry that satisfies the slot condition for
absolute position `j + i` preserves slot consistency. -/
theorem wfL_set {V : Type} {A : Alphabet} :
    ∀ {cs : List (Option (Node V))} {j i : Nat} {o : Option (Node V)},
      wfL A cs j = true →
      (∀ m2 : Node V, o = some m2 → A.ord m2.key = ((j + i : Nat) : Int) ∧ wfN A m2 = true) →
      wfL A (cs.set i o) j = true := by
  intro cs
  induction cs with
  | nil => intro j i o h _; simpa using h
  | cons o0 rest ih =>
    intro j i o hwf ho
    cases i with
    | zero =>
      rw [List.set_cons_zero]
      cases o with
      | none =>
        simp only [wfL]
        cases o0 with
        | none => simpa [wfL] using hwf
        | some m1 => simp only [wfL, Bool.and_eq_true] at hwf; exact hwf.2
      | some m2 =>
        have h2 := ho m2 rfl
        simp only [wfL, Bool.and_eq_true, beq_iff_eq]
        refine ⟨⟨by rw [h2.1]; omega, h2.2⟩, ?_⟩
        cases o0 with
        | none => simpa [wfL] using hwf
        | some m1 => simp only [wfL, Bool.and_eq_true] at hwf; exact hwf.2
    | succ i0 =>
      rw [List.set_cons_succ]
      have hstep : ∀ m2 : Node V, o = some m2 →
          A.ord m2.key = (((j + 1) + i0 : Nat) : Int) ∧ wfN A m2 = true := by
        intro m2 hm2
        have := ho m2 hm2
        refine ⟨?_, this.2⟩
        rw [this.1]
        omega
      cases o0 with
      | none =>
        simp only [wfL] at hwf
        simpa [wfL] using ih hwf hstep
      | some m1 =>
        simp only [wfL, Bool.and_eq_true] at hwf
        simp only [wfL, Bool.and_eq_true]
        exact ⟨⟨hwf.1.1, hwf.1.2⟩, ih hwf.2 hstep⟩

theorem wfL_replicate {V : Type} (A : Alphabet) :
    ∀ (k j : Nat), wfL A (List.replicate k (none : Option (Node V))) j = true := by
  intro k
  induction k with
  | zero => intro j; simp [wfL]
  | succ k0 ih => intro j; simpa [List.replicate_succ, wfL] using ih (j + 1)

theorem wfN_newNode {V : Type} (A : Alphabet) (c : Char) : wfN A (newNode V A c) = true := by
  simp [newNode, wfN, wfL_replicate]

theorem wfN_emptyNode {V : Type} (A : Alphabet) : wfN A (emptyNode V A) = true := by
  simp [emptyNode, wfN, wfL_replicate]

/-! ### The insertion walk -/

theorem insertGo_key {V : Type} (A : Alphabet) (v : V) :
    ∀ (k : List Char) (n : Node V), ((insertGo A v n k).2).key = n.key := by
  intro k
  induction k with
  | nil =>
    intro n
    simp only [insertGo]
    cases h : n.value.isSome <;> simp [h]
  | cons c rest ih =>
    intro n
    cases h : childIdx n.children c <;> simp [insertGo, h]

theorem newNode_valueAt {V : Type} (A : Alphabet) (c : Char) :
    ∀ (rest : List Char), (newNode V A c).valueAt rest = none := by
  intro rest
  cases rest with
  | nil => simp [newNode]
  | cons c2 r2 =>
    apply valueAt_cons_of_none
    apply child_eq_none_of_childIdx
    simp only [newNode, Node.children_mk]
    exact childIdx_replicate A.size c2

theorem insertGo_fst {V : Type} (A : Alphabet) (v : V) :
    ∀ (k : List Char) (n : Node V), (insertGo A v n k).1 = (n.valueAt k).isNone := by
  intro k
  induction k with
  | nil =>
    intro n
    cases h : n.value <;> simp [insertGo, h]
  | cons c rest ih =>
    intro n
    cases h : childIdx n.children c with
    | none =>
      rw [valueAt_cons_of_none (child_eq_none_of_childIdx h)]
      simp only [insertGo, h]
      rw [ih, newNode_valueAt]
    | some p =>
      rw [valueAt_cons_of_child (child_eq_of_childIdx h)]
      simp only [insertGo, h]
      exact ih p.2

theorem insertGo_valueAt {V : Type} {A : Alphabet} (hA : A.ordRange) (v : V) :
    ∀ (k : List Char) (n : Node V), isKeyCorrect A k = true → wfN A n = true →
      ((insertGo A v n k).2).valueAt k = some ((n.valueAt k).getD v) := by
  intro k
  induction k with
  | nil =>
    intro n _ _
    simp only [insertGo, valueAt_nil]
    cases h : n.value with
    | none => simp [h]
    | some w => simp [h]
  | cons c rest ih =>
    intro n hk hw
    rcases isKeyCorrect_cons hk with ⟨hc, hrest⟩
    cases h : childIdx n.children c with
    | some p =>
      have hget := childIdx_getElem h
      have hwfp : wfN A p.2 = true := (wfL_getElem (wfN_wfL hw) hget.1).2
      have hkeyr : ((insertGo A v p.2 rest).2).key = p.2.key := insertGo_key A v rest p.2
      have hidx2 : childIdx (n.children.set p.1 (some (insertGo A v p.2 rest).2)) c =
          some (p.1, (insertGo A v p.2 rest).2) :=
        childIdx_set_found h (hkeyr.trans hget.2)
      simp only [insertGo, h]
      rw [valueAt_cons_of_child (show (Node.mk (n.children.set p.1
            (some (insertGo A v p.2 rest).2)) n.value n.key).child c =
            some (insertGo A v p.2 rest).2 by
          simp [Node.child, hidx2])]
      rw [valueAt_cons_of_child (child_eq_of_childIdx h)]
      exact ih p.2 hrest hwfp
    | none =>
      have hlt : (A.ord c).toNat < n.children.length := by
        rcases hA c with h1 | h2
        · exact absurd h1 hc
        · rw [wfN_length hw]
          omega
      have hkeyr : ((insertGo A v (newNode V A c) rest).2).key = c :=
        (insertGo_key A v rest (newNode V A c)).trans rfl
      have hidx2 : childIdx (n.children.set (A.ord c).toNat
            (some (insertGo A v (newNode V A c) rest).2)) c =
          some ((A.ord c).toNat, (insertGo A v (newNode V A c) rest).2) :=
        childIdx_set_of_none h hlt hkeyr
      simp only [insertGo, h]
      rw [valueAt_cons_of_child (show (Node.mk (n.children.set (A.ord c).toNat
            (some (insertGo A v (newNode V A c) rest).2)) n.value n.key).child c =
            some (insertGo A v (newNode V A c) rest).2 by
          simp [Node.child, hidx2])]
      rw [valueAt_cons_of_none (child_eq_none_of_childIdx h)]
      rw [ih (newNode V A c) hrest (wfN_newNode A c), newNode_valueAt]

theorem insertGo_wfN {V : Type} {A : Alphabet} (hA : A.ordRange) (v : V) :
    ∀ (k : List Char) (n : Node V), isKeyCorrect A k = true → wfN A n = true →
      wfN A (insertGo A v n k).2 = true := by
  intro k
  induction k with
  | nil =>
    intro n _ hw
    cases n with
    | mk cs v0 k0 =>
      cases v0 <;> simpa [insertGo, wfN] using hw
  | cons c rest ih =>
    intro n hk hw
    rcases isKeyCorrect_cons hk with ⟨hc, hrest⟩
    cases n with
    | mk cs v0 k0 =>
      simp only [wfN, Bool.and_eq_true, beq_iff_eq] at hw
      cases h : childIdx cs c with
      | some p =>
        have hget := childIdx_getElem (show childIdx cs c = some (p.1, p.2) from h)
        have hwfp : wfN A p.2 = true := (wfL_getElem hw.2 hget.1).2
        have hordp : A.ord p.2.key = ((0 + p.1 : Nat) : Int) := (wfL_getElem hw.2 hget.1).1
        simp only [insertGo, Node.children_mk, h, wfN, Bool.and_eq_true, beq_iff_eq]
        constructor
        · simp [hw.1]
        · apply wfL_set hw.2
          intro m2 hm2
          have hm2e : m2 = (insertGo A v p.2 rest).2 := (Option.some.inj hm2).symm
          constructor
          · rw [hm2e, insertGo_key A v rest p.2, hordp]
          · rw [hm2e]; exact ih p.2 hrest hwfp
      | none =>
        have hlt : (A.ord c).toNat < cs.length := by
          rcases hA c with h1 | h2
          · exact absurd h1 hc
          · rw [show cs.length = A.size by simpa using hw.1]
            omega
        simp only [insertGo, Node.children_mk, h, wfN, Bool.and_eq_true, beq_iff_eq]
        constructor
        · simp [hw.1]
        · apply wfL_set hw.2
          intro m2 hm2
          have hm2e : m2 = (insertGo A v (newNode V A c) rest).2 := (Option.some.inj hm2).symm
          constructor
          · rw [hm2e, insertGo_key A v rest (newNode V A c)]
            show A.ord (newNode V A c).key = _
            have : 0 ≤ A.ord c := by
              rcases hA c with h1 | h2
              · exact absurd h1 hc
              · exact h2.1
            simp [newNode, Int.toNat_of_nonneg this]
          · rw [hm2e]; exact ih (newNode V A c) hrest (wfN_newNode A c)

theorem insertGo_id {V : Type} (A : Alphabet) (v : V) :
    ∀ (k : List Char) (n : Node V) (w : V), n.valueAt k = some w →
      insertGo A v n k = (false, n) := by
  intro k
  induction k with
  | nil =>
    intro n w h
    simp only [valueAt_nil] at h
    simp [insertGo, h]
  | cons c rest ih =>
    intro n w h
    cases hidx : childIdx n.children c with
    | none =>
      rw [valueAt_cons_of_none (child_eq_none_of_childIdx hidx)] at h
      simp at h
    | some p =>
      rw [valueAt_cons_of_child (child_eq_of_childIdx hidx)] at h
      have hrec := ih p.2 w h
      simp only [insertGo, hidx, hrec]
      have hset : n.children.set p.1 (some p.2) = n.children :=
        set_getElem_self (childIdx_getElem hidx).1
      rw [hset]
      cases n with
      | mk cs v0 k0 => simp

/-! ### The pruning invariant and the removal cascade -/

theorem prunedN_children {V : Type} (n : Node V) : prunedN n = prunedL n.children := by
  cases n with
  | mk cs v k => rfl

theorem prunedL_getElem {V : Type} :
    ∀ {cs : List (Option (Node V))} {j : Nat} {m : Node V},
      prunedL cs = true → cs[j]? = some (some m) →
      (m.hasValue || m.hasChildren) = true ∧ prunedN m = true := by
  intro cs
  induction cs with
  | nil => intro j m _ hm; simp at hm
  | cons o rest ih =>
    intro j m hp hm
    cases o with
    | none =>
      simp only [prunedL] at hp
      cases j with
      | zero => simp at hm
      | succ j0 => exact ih hp (by simpa using hm)
    | some m1 =>
      simp only [prunedL, Bool.and_eq_true] at hp
      cases j with
      | zero =>
        simp only [List.getElem?_cons_zero, Option.some.injEq] at hm
        exact ⟨hm ▸ hp.1.1, hm ▸ hp.1.2⟩
      | succ j0 => exact ih hp.2 (by simpa using hm)

theorem prunedL_set_none {V : Type} :
    ∀ {cs : List (Option (Node V))} (i : Nat),
      prunedL cs = true → prunedL (cs.set i none) = true := by
  intro cs
  induction cs with
  | nil => intro i h; simpa using h
  | cons o rest ih =>
    intro i hp
    cases i with
    | zero =>
      rw [List.set_cons_zero]
      simp only [prunedL]
      cases o with
      | none => simpa [prunedL] using hp
      | some m1 => simp only [prunedL, Bool.and_eq_true] at hp; exact hp.2
    | succ i0 =>
      rw [List.set_cons_succ]
      cases o with
      | none => simp only [prunedL] at hp; simpa [prunedL] using ih i0 hp
      | some m1 =>
        simp only [prunedL, Bool.and_eq_true] at hp
        simp only [prunedL, Bool.and_eq_true]
        exact ⟨hp.1, ih i0 hp.2⟩

theorem prunedL_set_some {V : Type} :
    ∀ {cs : List (Option (Node V))} (i : Nat) {m : Node V},
      prunedL cs = true → (m.hasValue || m.hasChildren) = true → prunedN m = true →
      prunedL (cs.set i (some m)) = true := by
  intro cs
  induction cs with
  | nil => intro i m h _ _; simpa using h
  | cons o rest ih =>
    intro i m hp hv hm
    cases i with
    | zero =>
      rw [List.set_cons_zero]
      simp only [prunedL, Bool.and_eq_true]
      refine ⟨⟨hv, hm⟩, ?_⟩
      cases o with
      | none => simpa [prunedL] using hp
      | some m1 => simp only [prunedL, Bool.and_eq_true] at hp; exact hp.2
    | succ i0 =>
      rw [List.set_cons_succ]
      cases o with
      | none => simp only [prunedL] at hp; simpa [prunedL] using ih i0 hp hv hm
      | some m1 =>
        simp only [prunedL, Bool.and_eq_true] at hp
        simp only [prunedL, Bool.and_eq_true]
        exact ⟨hp.1, ih i0 hp.2 hv hm⟩

/-- On a pruned tree, removing a key whose terminal node exists but holds no
value changes nothing: the cleared value was already absent, and the cascade
stops at once because every reachable non-root node keeps a value or a
child. -/
theorem removeGo_id {V : Type} :
    ∀ (k : List Char) (n : Node V) (m : Node V), prunedN n = true →
      n.nodeAt k = some m → m.value = none → removeGo n k = n := by
  intro k
  induction k with
  | nil =>
    intro n m _ hm hv
    simp only [Node.nodeAt, Option.some.injEq] at hm
    rw [← hm] at hv
    cases n with
    | mk cs v0 k0 =>
      simp only [Node.value_mk] at hv
      simp [removeGo, hv]
  | cons c rest ih =>
    intro n m hp hm hv
    simp only [Node.nodeAt] at hm
    cases hidx : childIdx n.children c with
    | none =>
      rw [child_eq_none_of_childIdx hidx] at hm
      simp at hm
    | some p =>
      rw [child_eq_of_childIdx hidx] at hm
      have hsub := prunedL_getElem (prunedN_children n ▸ hp) (childIdx_getElem hidx).1
      have hrec : removeGo p.2 rest = p.2 := ih p.2 m hsub.2 hm hv
      simp only [removeGo, hidx, hrec, hsub.1, if_pos]
      rw [set_getElem_self (childIdx_getElem hidx).1]
      cases n with
      | mk cs v0 k0 => simp

/-- The removal cascade preserves the pruning invariant: it deletes exactly
the nodes that the removal has left valueless and childless, so afterwards
no reachable non-root node is simultaneously valueless and childless. -/
theorem removeGo_pruned {V : Type} :
    ∀ (k : List Char) (n : Node V), prunedN n = true → prunedN (removeGo n k) = true := by
  intro k
  induction k with
  | nil =>
    intro n hp
    cases n with
    | mk cs v0 k0 => simpa [removeGo, prunedN] using hp
  | cons c rest ih =>
    intro n hp
    cases hidx : childIdx n.children c with
    | none => simpa [removeGo, hidx] using hp
    | some p =>
      have hsub := prunedL_getElem (prunedN_children n ▸ hp) (childIdx_getElem hidx).1
      have hrec : prunedN (removeGo p.2 rest) = true := ih p.2 hsub.2
      simp only [removeGo, hidx]
      cases hcond : ((removeGo p.2 rest).hasValue || (removeGo p.2 rest).hasChildren) with
      | true =>
        rw [if_pos rfl, prunedN_children]
        simp only [Node.children_mk]
        exact prunedL_set_some p.1 (prunedN_children n ▸ hp) hcond hrec
      | false =>
        rw [if_neg (by simp), prunedN_children]
        simp only [Node.children_mk]
        exact prunedL_set_none p.1 (prunedN_children n ▸ hp)

/-! ### `search` and `at` in terms of the value at the key -/

theorem search_eq {V : Type} (A : Alphabet) (t : Trie V) (k : List Char)
    (hk : isKeyCorrect A k = true) :
    Trie.search A t k = .ok (t.root.valueAt k) := by
  unfold Trie.search
  rw [if_pos hk, getPath_getLast]
  cases h : t.root.nodeAt k with
  | none => simp [Node.valueAt, h]
  | some m => simp [Node.valueAt, h]

theorem atKey_eq {V : Type} (A : Alphabet) (t : Trie V) (k : List Char)
    (hk : isKeyCorrect A k = true) :
    Trie.atKey A t k =
      (match t.root.valueAt k with
        | some v => .ok v
        | none => .error "Key not found!") := by
  unfold Trie.atKey
  rw [if_pos hk, getPath_getLast]
  cases h : t.root.nodeAt k with
  | none => simp [Node.valueAt, h]
  | some m =>
    cases hv : m.value with
    | none => simp [Node.valueAt, h, hv]
    | some v => simp [Node.valueAt, h, hv]

/-! ### The key accumulator of `getItems` -/

mutual

/-- A non-root frame of `getItems` restores the key accumulator: it appends
exactly one symbol and its final `pop_back` removes it again. -/
theorem itemsSim_key {V : Type} : ∀ (n : Node V) (key : List Char),
    (itemsSim n true key).2.1 = key
  | .mk cs v k, key => by
      have h1 := itemsSimList_key cs (key ++ [k])
      simp [itemsSim, h1]

/-- Folding `getItems` over a slot list leaves the accumulator unchanged. -/
theorem itemsSimList_key {V : Type} : ∀ (l : List (Option (Node V))) (key : List Char),
    (itemsSimList l key).2.1 = key
  | [], key => by simp [itemsSimList]
  | none :: rest, key => by
      simp only [itemsSimList]
      exact itemsSimList_key rest key
  | some m :: rest, key => by
      simp only [itemsSimList]
      rw [itemsSimList_key rest ((itemsSim m true key).2.1), itemsSim_key m key]

end

/-! ### Strong induction over the node tree -/

theorem Node.strongInduction {V : Type} {P : Node V → Prop}
    (h : ∀ (cs : List (Option (Node V))) (v : Option V) (k : Char),
          (∀ m : Node V, some m ∈ cs → P m) → P (.mk cs v k)) :
    ∀ n : Node V, P n
  | .mk cs v k => h cs v k (fun m hm => Node.strongInduction h m)
termination_by n => sizeOf n
decreasing_by
  have h1 : sizeOf (some m) < sizeOf cs := List.sizeOf_lt_of_mem hm
  simp only [Node.mk.sizeOf_spec]
  simp only [Option.some.sizeOf_spec] at h1
  omega

/-! ### The structural copy -/

/-- Running the child loop of `copyTrieRec` over the suffix of the source
slots that starts at position `j`, on a destination whose first `j` slots
already mirror the source and whose remaining slots are still null, fills in
exactly the remaining slots of the source. -/
theorem copyList_fill {V : Type} (A : Alphabet) (cs : List (Option (Node V)))
    (hlen : cs.length = A.size)
    (hord : ∀ (i : Nat) (m : Node V), cs[i]? = some (some m) → A.ord m.key = (i : Int))
    (hcopy : ∀ m : Node V, some m ∈ cs → copyRec A (newNode V A m.key) m = m) :
    ∀ (suf : List (Option (Node V))) (j : Nat) (dst : Node V),
      suf = cs.drop j →
      dst.children = cs.take j ++ List.replicate (A.size - j) none →
      copyList A dst suf = Node.mk cs dst.value dst.key := by
  intro suf
  induction suf with
  | nil =>
    intro j dst hsuf hch
    have hj : cs.length ≤ j := List.drop_eq_nil_iff.mp hsuf.symm
    have hch2 : dst.children = cs := by
      rw [hch, List.take_of_length_le hj, show A.size - j = 0 by omega]
      simp
    cases dst with
    | mk dcs dv dk =>
      simp only [Node.children_mk] at hch2
      simp [copyList, hch2]
  | cons o rest ih =>
    intro j dst hsuf hch
    have hjlt : j < cs.length := by
      by_contra hge
      push_neg at hge
      rw [List.drop_eq_nil_iff.mpr hge] at hsuf
      exact List.cons_ne_nil o rest hsuf
    have ho : cs[j]? = some o := by
      have h0 : (cs.drop j)[0]? = cs[j + 0]? := List.getElem?_drop cs j 0
      rw [← hsuf] at h0
      simpa using h0.symm
    have hrest : rest = cs.drop (j + 1) := by
      have := List.tail_drop cs j
      rw [← hsuf] at this
      simpa using this
    have hjsize : j < A.size := hlen ▸ hjlt
    have htake : cs.take (j + 1) = cs.take j ++ [o] := by
      rw [List.take_succ, ho]
      rfl
    cases o with
    | none =>
      simp only [copyList]
      apply ih (j + 1) dst hrest
      rw [hch, htake]
      rw [show A.size - j = (A.size - (j + 1)) + 1 by omega, List.replicate_succ]
      rw [List.append_cons]
    | some ch =>
      have hordc : A.ord ch.key = (j : Int) := hord j ch ho
      have hbuilt : copyRec A (newNode V A ch.key) ch = ch :=
        hcopy ch (List.getElem?_mem ho)
      simp only [copyList, hbuilt]
      have htonat : (A.ord ch.key).toNat = j := by rw [hordc]; rfl
      have hset : dst.children.set (A.ord ch.key).toNat (some ch) =
          cs.take (j + 1) ++ List.replicate (A.size - (j + 1)) none := by
        rw [htonat, hch]
        rw [show A.size - j = (A.size - (j + 1)) + 1 by omega, List.replicate_succ]
        rw [List.set_append]
        rw [if_neg (by rw [List.length_take]; omega)]
        rw [show j - (cs.take j).length = 0 by rw [List.length_take]; omega]
        rw [List.set_cons_zero, htake, List.append_cons]
      have hres := ih (j + 1) (Node.mk (dst.children.set (A.ord ch.key).toNat (some ch))
            dst.value dst.key) hrest (by simpa using hset)
      simpa using hres

/-- On a well-formed source tree, `copyTrieRec` into a fresh node carrying
the same label reproduces the source node exactly. -/
theorem copyRec_eq {V : Type} (A : Alphabet) :
    ∀ (n : Node V), wfN A n = true →
      ∀ (dst : Node V), dst.value = none →
        dst.children = List.replicate A.size none → dst.key = n.key →
        copyRec A dst n = n := by
  intro n
  induction n using Node.strongInduction with
  | _ cs v k ih =>
    intro hw dst hv hch hk
    have hlen : cs.length = A.size := by simpa using wfN_length hw
    have hwfl : wfL A cs 0 = true := by simpa using wfN_wfL hw
    have hord : ∀ (i : Nat) (m : Node V), cs[i]? = some (some m) → A.ord m.key = (i : Int) := by
      intro i m hm
      have := (wfL_getElem hwfl hm).1
      simpa using this
    have hwfm : ∀ m : Node V, some m ∈ cs → wfN A m = true := by
      intro m hm
      rcases List.getElem_of_mem hm with ⟨i, hi, he⟩
      have : cs[i]? = some (some m) := by
        rw [List.getElem?_eq_getElem hi, he]
      exact (wfL_getElem hwfl this).2
    have hcopy : ∀ m : Node V, some m ∈ cs → copyRec A (newNode V A m.key) m = m := by
      intro m hm
      exact ih m hm (hwfm m hm) (newNode V A m.key) rfl rfl rfl
    simp only [copyRec]
    cases hvv : v with
    | none =>
      rw [if_neg (by simp)]
      have hfill := copyList_fill A cs hlen hord hcopy cs 0 dst (by simp) (by simpa using hch)
      rw [hfill, hv]
      simp only [hk, Node.key_mk]
    | some w =>
      rw [if_pos (by simp [Node.hasValue, hv])]
      have hfill := copyList_fill A cs hlen hord hcopy cs 0
        (Node.mk dst.children (some w) dst.key) (by simp) (by simpa using hch)
      rw [hfill]
      simp only [Node.value_mk, Node.key_mk, hk]

/-! ### A concrete alphabet and concrete tries for witnesses and
counterexamples -/

/-- A four-symbol alphabet over the letters of "cat" and "car", an instance
of the `Alphabet` template contract. -/
def catAlphabet : Alphabet :=
  ⟨4, fun c =>
    if c = 'c' then 0 else if c = 'a' then 1 else if c = 't' then 2
    else if c = 'r' then 3 else -1⟩

theorem catAlphabet_ordRange : catAlphabet.ordRange := by
  intro c
  simp only [catAlphabet, Alphabet.ordRange]
  split_ifs <;> norm_num

/-- The trie holding `"cat" := v1` and `"car" := v2`. -/
def catTrie2 (V : Type) (v1 v2 : V) : Trie V :=
  (Trie.insert catAlphabet
    ((Trie.insert catAlphabet (emptyTrie V catAlphabet) (['c', 'a', 't']) v1).2)
    (['c', 'a', 'r']) v2).2

/-- `catTrie2` after `remove("cat")`. -/
def catTrie3 (V : Type) (v1 v2 : V) : Trie V :=
  (Trie.remove catAlphabet (catTrie2 V v1 v2) (['c', 'a', 't'])).2

/-! ### The claims -/

/-- C1, as stated, is false: when the key already holds a value, `insert`
does not overwrite it, so `insert(k, v)` followed by `search(k)` yields the
old value, not `v`.  Concretely, on the trie holding `"a" := 1`, after
`insert("a", 2)` the search yields `1`, not `2`. -/
theorem insert_search_roundtrip_cex :
    Trie.search catAlphabet ((Trie.insert catAlphabet
        ((Trie.insert catAlphabet (emptyTrie Nat catAlphabet) (['a']) 1).2)
        (['a']) 2).2) (['a']) ≠ Except.ok (some 2) := by
  intro h
  rw [show Trie.search catAlphabet ((Trie.insert catAlphabet
        ((Trie.insert catAlphabet (emptyTrie Nat catAlphabet) (['a']) 1).2)
        (['a']) 2).2) (['a']) = Except.ok (some 1) from rfl] at h
  simp at h

/-- C1 (amended): for every well-formed trie, alphabet-valid key `k` holding
no value yet, and value `v`, `insert(k, v)` followed by `search(k)` yields
`v`.  (The amendment adds the precondition that no value is already stored at
`k`; without it the no-overwrite rule makes the round trip return the old
value.) -/
theorem insert_then_search_fresh {V : Type} (A : Alphabet) (t : Trie V) (k : List Char)
    (v : V) (hA : A.ordRange) (hk : isKeyCorrect A k = true)
    (hw : wfN A t.root = true) (h0 : t.root.valueAt k = none) :
    Trie.search A ((Trie.insert A t k v).2) k = Except.ok (some v) := by
  have hins : (Trie.insert A t k v).2 = ⟨(insertGo A v t.root k).2⟩ := by
    simp [Trie.insert, hk]
  rw [hins, search_eq A _ k hk]
  show Except.ok ((insertGo A v t.root k).2.valueAt k) = _
  rw [insertGo_valueAt hA v k t.root hk hw, h0]
  rfl

theorem insert_then_search_fresh_witness :
    Trie.search catAlphabet ((Trie.insert catAlphabet (emptyTrie Nat catAlphabet)
      (['c', 'a']) 5).2) (['c', 'a']) = Except.ok (some 5) :=
  insert_then_search_fresh catAlphabet (emptyTrie Nat catAlphabet) (['c', 'a']) 5
    catAlphabet_ordRange (by decide) (by decide) (by decide)

/-- C2: on a well-formed trie with an alphabet-valid key, `insert` returns
true exactly when the key held no value; when a value `w` is already present
the call returns false and leaves the trie unchanged; and after a successful
`insert(k, v1)`, `search(k)` yields `v1` while a second `insert(k, v2)`
returns false and changes nothing. -/
theorem insert_no_overwrite {V : Type} (A : Alphabet) (t : Trie V) (k : List Char)
    (v1 v2 : V) (hA : A.ordRange) (hk : isKeyCorrect A k = true)
    (hw : wfN A t.root = true) :
    ((Trie.insert A t k v1).1 = Except.ok true ↔ t.root.valueAt k = none) ∧
    (∀ w : V, t.root.valueAt k = some w → Trie.insert A t k v1 = (Except.ok false, t)) ∧
    ((Trie.insert A t k v1).1 = Except.ok true →
      Trie.search A ((Trie.insert A t k v1).2) k = Except.ok (some v1) ∧
      Trie.insert A ((Trie.insert A t k v1).2) k v2 =
        (Except.ok false, (Trie.insert A t k v1).2)) := by
  have hfst : (Trie.insert A t k v1).1 = Except.ok (t.root.valueAt k).isNone := by
    simp [Trie.insert, hk, insertGo_fst]
  have hsnd : (Trie.insert A t k v1).2 = ⟨(insertGo A v1 t.root k).2⟩ := by
    simp [Trie.insert, hk]
  refine ⟨?_, ?_, ?_⟩
  · rw [hfst]
    cases h : t.root.valueAt k with
    | none => simp
    | some w => simp
  · intro w hwv
    have hid := insertGo_id A v1 k t.root w hwv
    simp [Trie.insert, hk, hid]
  · intro htrue
    have h0 : t.root.valueAt k = none := by
      rw [hfst] at htrue
      cases h : t.root.valueAt k with
      | none => rfl
      | some w => rw [h] at htrue; simp at htrue
    have hval : ((Trie.insert A t k v1).2).root.valueAt k = some v1 := by
      rw [hsnd]
      show ((insertGo A v1 t.root k).2).valueAt k = some v1
      rw [insertGo_valueAt hA v1 k t.root hk hw, h0]
      rfl
    constructor
    · rw [search_eq A _ k hk, hval]
    · have hid := insertGo_id A v2 k ((Trie.insert A t k v1).2).root v1 hval
      have hroot : ((Trie.insert A t k v1).2).root = (insertGo A v1 t.root k).2 := by
        rw [hsnd]
      rw [hroot] at hid
      simp [Trie.insert, hk, hid, hsnd]

theorem insert_no_overwrite_witness :
    (Trie.insert catAlphabet ((Trie.insert catAlphabet (emptyTrie Nat catAlphabet)
        (['c', 'a']) 7).2) (['c', 'a']) 9 =
      (Except.ok false, (Trie.insert catAlphabet (emptyTrie Nat catAlphabet)
        (['c', 'a']) 7).2)) ∧
    Trie.search catAlphabet ((Trie.insert catAlphabet (emptyTrie Nat catAlphabet)
      (['c', 'a']) 7).2) (['c', 'a']) = Except.ok (some 7) := by
  have h := (insert_no_overwrite catAlphabet (emptyTrie Nat catAlphabet)
    (['c', 'a']) 7 9 catAlphabet_ordRange (by decide) (by decide)).2.2 (by rfl)
  exact ⟨h.2, h.1⟩

/-- C4: removing an alphabet-valid key that currently maps to no value —
whether its path is missing entirely or ends at a valueless node — raises no
error and leaves the trie exactly unchanged, provided the trie satisfies the
pruning invariant that the container maintains (no reachable valueless,
childless non-root node). -/
theorem remove_absent_noop {V : Type} (A : Alphabet) (t : Trie V) (k : List Char)
    (hk : isKeyCorrect A k = true) (hp : prunedN t.root = true)
    (h0 : t.root.valueAt k = none) :
    Trie.remove A t k = (Except.ok (), t) := by
  unfold Trie.remove
  rw [if_pos hk, getPath_getLast]
  cases hn : t.root.nodeAt k with
  | none => rfl
  | some m =>
    have hv : m.value = none := by
      rw [Node.valueAt, hn] at h0
      simpa using h0
    have hid := removeGo_id k t.root m hp hn hv
    simp [hid]

theorem remove_absent_noop_witness :
    Trie.remove catAlphabet (catTrie2 Nat 1 2) (['t', 'a']) =
      (Except.ok (), catTrie2 Nat 1 2) :=
  remove_absent_noop catAlphabet (catTrie2 Nat 1 2) (['t', 'a'])
    (by decide) (by decide) (by decide)

/-- C5: every key containing a symbol with no valid `ord` makes each of
`search`, `at`, `insert`, `remove` and `operator[]` fail with the
`"Incorrect key"` out-of-range error, and the failing call performs no
mutation: the trie it leaves behind is exactly the one it was given. -/
theorem invalid_key_guard {V : Type} [Inhabited V] (A : Alphabet) (t : Trie V)
    (k : List Char) (v : V) (c : Char) (hc : c ∈ k) (hbad : A.ord c = -1) :
    Trie.search A t k = Except.error "Incorrect key" ∧
    Trie.atKey A t k = Except.error "Incorrect key" ∧
    Trie.insert A t k v = (Except.error "Incorrect key", t) ∧
    Trie.remove A t k = (Except.error "Incorrect key", t) ∧
    Trie.bracket A t k = (Except.error "Incorrect key", t) := by
  have hk : isKeyCorrect A k = false := by
    cases hkk : isKeyCorrect A k with
    | false => rfl
    | true =>
      have := List.all_eq_true.mp hkk c hc
      simp [isInAlphabet, hbad] at this
  refine ⟨?_, ?_, ?_, ?_, ?_⟩ <;>
    simp [Trie.search, Trie.atKey, Trie.insert, Trie.remove, Trie.bracket, hk]

theorem invalid_key_guard_witness :
    Trie.search catAlphabet (emptyTrie Nat catAlphabet) (['c', 'x']) =
      Except.error "Incorrect key" ∧
    Trie.bracket catAlphabet (emptyTrie Nat catAlphabet) (['c', 'x']) =
      (Except.error "Incorrect key", emptyTrie Nat catAlphabet) := by
  have h := invalid_key_guard catAlphabet (emptyTrie Nat catAlphabet)
    (['c', 'x']) 0 'x' (by decide) (by decide)
  exact ⟨h.1, h.2.2.2.2⟩

/-- C6: for an alphabet-valid key, `at` fails with the `"Key not found!"`
error exactly when the key's path does not end at a node holding a value,
and returns the value when one is there; `search` on the same key never
raises and instead reports the optional value (`none` for an absent key). -/
theorem at_vs_search {V : Type} (A : Alphabet) (t : Trie V) (k : List Char)
    (hk : isKeyCorrect A k = true) :
    (Trie.atKey A t k = Except.error "Key not found!" ↔ t.root.valueAt k = none) ∧
    (∀ v : V, t.root.valueAt k = some v → Trie.atKey A t k = Except.ok v) ∧
    Trie.search A t k = Except.ok (t.root.valueAt k) := by
  refine ⟨?_, ?_, search_eq A t k hk⟩
  · rw [atKey_eq A t k hk]
    cases h : t.root.valueAt k with
    | none => simp
    | some v => simp
  · intro v hv
    rw [atKey_eq A t k hk, hv]

theorem at_vs_search_witness :
    (Trie.atKey catAlphabet (catTrie2 Nat 1 2) (['c', 'a']) =
        Except.error "Key not found!" ↔
      (catTrie2 Nat 1 2).root.valueAt (['c', 'a']) = none) ∧
    (∀ v : Nat, (catTrie2 Nat 1 2).root.valueAt (['c', 'a']) = some v →
      Trie.atKey catAlphabet (catTrie2 Nat 1 2) (['c', 'a']) = Except.ok v) ∧
    Trie.search catAlphabet (catTrie2 Nat 1 2) (['c', 'a']) =
      Except.ok ((catTrie2 Nat 1 2).root.valueAt (['c', 'a'])) :=
  at_vs_search catAlphabet (catTrie2 Nat 1 2) (['c', 'a']) (by decide)

/-- C3: starting from an empty trie over an alphabet containing 'c', 'a',
't', 'r', after `insert("cat", v1)` and `insert("car", v2)`, `remove("cat")`
leaves `search("car")` yielding `v2`, removes the node on the dead `"cat"`
suffix, and keeps the shared `"ca"` and `"c"` prefix nodes; a subsequent
`remove("car")` leaves `empty() == true`.  In general the cascade preserves
the pruning invariant: after any `remove`, no reachable non-root node is
simultaneously valueless and childless. -/
theorem remove_prunes_cat_car (V : Type) (v1 v2 : V) :
    (Trie.search catAlphabet (catTrie3 V v1 v2) (['c', 'a', 'r']) = Except.ok (some v2) ∧
     ((catTrie3 V v1 v2).root.nodeAt (['c', 'a', 't'])).isNone = true ∧
     ((catTrie3 V v1 v2).root.nodeAt (['c', 'a'])).isSome = true ∧
     ((catTrie3 V v1 v2).root.nodeAt (['c'])).isSome = true ∧
     (Trie.remove catAlphabet (catTrie3 V v1 v2) (['c', 'a', 'r'])).2.empty = true) ∧
    (∀ (A : Alphabet) (W : Type) (t : Trie W) (key : List Char),
      prunedN t.root = true → prunedN ((Trie.remove A t key).2).root = true) := by
  constructor
  · exact ⟨rfl, rfl, rfl, rfl, rfl⟩
  · intro A W t key hp
    unfold Trie.remove
    by_cases hkc : isKeyCorrect A key = true
    · rw [if_pos hkc]
      cases hl : (t.root.getPath key).getLast? with
      | none => simpa using removeGo_pruned key t.root hp
      | some o =>
        cases o with
        | none => simpa using hp
        | some m => simpa using removeGo_pruned key t.root hp
    · rw [if_neg hkc]
      simpa using hp

theorem remove_prunes_cat_car_witness :
    Trie.search catAlphabet (catTrie3 Nat 1 2) (['c', 'a', 'r']) = Except.ok (some 2) ∧
    ((catTrie3 Nat 1 2).root.nodeAt (['c', 'a', 't'])).isNone = true ∧
    ((catTrie3 Nat 1 2).root.nodeAt (['c', 'a'])).isSome = true ∧
    ((catTrie3 Nat 1 2).root.nodeAt (['c'])).isSome = true ∧
    (Trie.remove catAlphabet (catTrie3 Nat 1 2) (['c', 'a', 'r'])).2.empty = true :=
  (remove_prunes_cat_car Nat 1 2).1

/-- C7: on a well-formed trie with an alphabet-valid key, `operator[]` on an
absent key inserts a default-constructed value and returns it, and a
subsequent `search` on the same key yields that same default; on a present
key it returns the existing value and leaves the trie untouched. -/
theorem bracket_default_access {V : Type} [Inhabited V] (A : Alphabet) (t : Trie V)
    (k : List Char) (hA : A.ordRange) (hk : isKeyCorrect A k = true)
    (hw : wfN A t.root = true) :
    (t.root.valueAt k = none →
      Trie.bracket A t k = (Except.ok (default : V), (Trie.insert A t k default).2) ∧
      Trie.search A ((Trie.bracket A t k).2) k = Except.ok (some (default : V))) ∧
    (∀ v : V, t.root.valueAt k = some v → Trie.bracket A t k = (Except.ok v, t)) := by
  constructor
  · intro h0
    have hsearch : Trie.search A t k = Except.ok none := by
      rw [search_eq A t k hk, h0]
    have ht1 : (Trie.insert A t k (default : V)).2 =
        ⟨(insertGo A (default : V) t.root k).2⟩ := by
      simp [Trie.insert, hk]
    have hval : ((Trie.insert A t k (default : V)).2).root.valueAt k =
        some (default : V) := by
      rw [ht1]
      show ((insertGo A (default : V) t.root k).2).valueAt k = _
      rw [insertGo_valueAt hA (default : V) k t.root hk hw, h0]
      rfl
    have hat : Trie.atKey A ((Trie.insert A t k (default : V)).2) k =
        Except.ok (default : V) := by
      rw [atKey_eq A _ k hk, hval]
    have hbr : Trie.bracket A t k =
        (Except.ok (default : V), (Trie.insert A t k (default : V)).2) := by
      simp [Trie.bracket, hk, hsearch, hat]
    refine ⟨hbr, ?_⟩
    rw [hbr]
    show Trie.search A ((Trie.insert A t k (default : V)).2) k = _
    rw [search_eq A _ k hk, hval]
  · intro v hv
    have hsearch : Trie.search A t k = Except.ok (some v) := by
      rw [search_eq A t k hk, hv]
    simp [Trie.bracket, hk, hsearch]

theorem bracket_default_access_witness :
    Trie.bracket catAlphabet (emptyTrie Nat catAlphabet) (['r', 'a']) =
      (Except.ok (default : Nat),
        (Trie.insert catAlphabet (emptyTrie Nat catAlphabet) (['r', 'a'])
          (default : Nat)).2) ∧
    Trie.search catAlphabet ((Trie.bracket catAlphabet (emptyTrie Nat catAlphabet)
      (['r', 'a'])).2) (['r', 'a']) = Except.ok (some (default : Nat)) :=
  (bracket_default_access catAlphabet (emptyTrie Nat catAlphabet) (['r', 'a'])
    catAlphabet_ordRange (by decide) (by decide)).1 (by decide)

/-- The value content of the copy constructor: on a well-formed trie
(children stored at the slots `ord` assigns, root labelled with the default
`char 0`), `Trie(const Trie&)` reproduces the tree's topology, labels and
values exactly, so the copy's `items()` equals the original's.  This covers
only the value content; the `parent_` back-pointers after copy *assignment*
are settled separately below (`assign_dangling_parent`), where the
copy-and-swap of `operator=` breaks them. -/
theorem copy_deep_eq {V : Type} (A : Alphabet) (t : Trie V)
    (hw : wfN A t.root = true) (hroot : t.root.key = Char.ofNat 0) :
    Trie.copy A t = t ∧ (Trie.copy A t).items = t.items := by
  have h1 : Trie.copy A t = t := by
    unfold Trie.copy
    rw [copyRec_eq A t.root hw (emptyNode V A) rfl rfl hroot.symm]
  exact ⟨h1, by rw [h1]⟩

theorem copy_deep_eq_witness :
    Trie.copy catAlphabet (catTrie2 Nat 1 2) = catTrie2 Nat 1 2 ∧
    (Trie.copy catAlphabet (catTrie2 Nat 1 2)).items = (catTrie2 Nat 1 2).items :=
  copy_deep_eq catAlphabet (catTrie2 Nat 1 2) (by decide) (by decide)

/-- C8: the claim asserts that copy construction and copy assignment each
rebuild the parent back-reference / child-slot consistency invariant
independently in the copy; the code satisfies it for copy construction but
violates it for copy assignment.  On the failing input — an empty trie `a`
assigned from a trie holding `"c" := v` — the modelled `operator=` builds
the by-value temporary (its root object at address 1), whose depth-1 child
stores `parent_ = 1`, then swaps members into `a`'s root object (address 0)
without touching any stored `parent_`, and destroys the temporary.
Afterwards: the copy-constructed tree satisfies the back-reference invariant
(first conjunct), but the assigned tree does not (second): `a`'s root is
still the object at address 0 (third), its direct child in slot 0 stores
`parent_ = 1` (fourth), and address 1 belongs to no live node of the result
(fifth) — the back-reference dangles into the destroyed temporary, so a
later `remove("c")` whose cascade reaches that child dereferences the dead
pointer at `node->parent_->removeChild(node)` (src/trie.h line 269). -/
theorem assign_dangling_parent (V : Type) (v : V) :
    parentOkA ((copyCtorA catAlphabet 0 1
      ((Trie.insert catAlphabet (emptyTrie V catAlphabet) (['c']) v).2.root)).1) = true ∧
    parentOkA ((assignA catAlphabet
      (ANode.mk 0 (List.replicate 4 none) none (Char.ofNat 0) none) 1 2
      ((Trie.insert catAlphabet (emptyTrie V catAlphabet) (['c']) v).2.root)).1) = false ∧
    ((assignA catAlphabet
      (ANode.mk 0 (List.replicate 4 none) none (Char.ofNat 0) none) 1 2
      ((Trie.insert catAlphabet (emptyTrie V catAlphabet) (['c']) v).2.root)).1).addr = 0 ∧
    ((assignA catAlphabet
      (ANode.mk 0 (List.replicate 4 none) none (Char.ofNat 0) none) 1 2
      ((Trie.insert catAlphabet (emptyTrie V catAlphabet) (['c']) v).2.root)).1).parentOf 0 =
      some (some 1) ∧
    (addrsA ((assignA catAlphabet
      (ANode.mk 0 (List.replicate 4 none) none (Char.ofNat 0) none) 1 2
      ((Trie.insert catAlphabet (emptyTrie V catAlphabet) (['c']) v).2.root)).1)).contains 1 =
      false :=
  ⟨rfl, rfl, rfl, rfl, rfl⟩

theorem assign_dangling_parent_witness :
    parentOkA ((assignA catAlphabet
      (ANode.mk 0 (List.replicate 4 none) none (Char.ofNat 0) none) 1 2
      ((Trie.insert catAlphabet (emptyTrie Nat catAlphabet) (['c']) 7).2.root)).1) =
      false :=
  (assign_dangling_parent Nat 7).2.1

/-- C9, as stated, is false: a walk that fails exactly at the last symbol of
the key returns a sequence of full length `k.length + 1` that nevertheless
ends in the none marker, so `length < k.length + 1` does not characterize a
missing node.  Concretely, on a bare root node and the one-symbol key
`"a"`, `getPath` returns a 2-element sequence (its length is not less than
`1 + 1`) even though the key's node does not exist. -/
theorem getPath_length_cex :
    ((emptyNode Nat catAlphabet).getPath (['a'])).length = 1 + 1 ∧
    ((emptyNode Nat catAlphabet).nodeAt (['a'])).isNone = true ∧
    ¬(((emptyNode Nat catAlphabet).getPath (['a'])).length < 1 + 1 ↔
      ((emptyNode Nat catAlphabet).nodeAt (['a'])).isNone = true) := by
  refine ⟨rfl, rfl, ?_⟩
  intro h
  exact absurd (h.mpr rfl) (by decide)

/-- C9 (amended): for every node and alphabet-valid key, `getPath` returns a
sequence that starts with the receiver and has length at most
`k.length + 1`; it ends in the none marker exactly when the key's node does
not exist, and it has length `k.length + 1` with a non-null last element
exactly when the node exists.  (The amendment drops the converse
`length < k.length + 1` criterion for a missing node: a walk failing at the
last symbol yields a full-length sequence ending in the none marker.) -/
theorem getPath_spec {V : Type} (A : Alphabet) (n : Node V) (k : List Char)
    (hk : isKeyCorrect A k = true) :
    (n.getPath k).head? = some (some n) ∧
    (n.getPath k).length ≤ k.length + 1 ∧
    ((n.getPath k).getLast? = some none ↔ (n.nodeAt k).isNone = true) ∧
    ((n.getPath k).length = k.length + 1 ∧ (n.getPath k).getLast? ≠ some none ↔
      (n.nodeAt k).isSome = true) := by
  refine ⟨getPath_head n k, getPath_length_le n k, ?_, ?_⟩
  · rw [getPath_getLast]
    cases h : n.nodeAt k with
    | none => simp
    | some m => simp
  · constructor
    · intro hex
      rw [getPath_getLast] at hex
      cases h : n.nodeAt k with
      | none => rw [h] at hex; simp at hex
      | some m => rfl
    · intro hex
      have hlen := getPath_length_of_isSome n k hex
      refine ⟨hlen, ?_⟩
      rw [getPath_getLast]
      cases h : n.nodeAt k with
      | none => rw [h] at hex; simp at hex
      | some m => simp

theorem getPath_spec_witness :
    ((emptyNode Nat catAlphabet).getPath (['c', 'a'])).head? =
      some (some (emptyNode Nat catAlphabet)) ∧
    ((emptyNode Nat catAlphabet).getPath (['c', 'a'])).length ≤ 2 + 1 ∧
    (((emptyNode Nat catAlphabet).getPath (['c', 'a'])).getLast? = some none ↔
      ((emptyNode Nat catAlphabet).nodeAt (['c', 'a'])).isNone = true) ∧
    (((emptyNode Nat catAlphabet).getPath (['c', 'a'])).length = 2 + 1 ∧
        ((emptyNode Nat catAlphabet).getPath (['c', 'a'])).getLast? ≠ some none ↔
      ((emptyNode Nat catAlphabet).nodeAt (['c', 'a'])).isSome = true) :=
  getPath_spec catAlphabet (emptyNode Nat catAlphabet) (['c', 'a']) (by decide)

/-- C10, the implicit claim that `items()` never pops the key accumulator
when it is empty, is false: `getItems` executes `key.pop_back()`
unconditionally at the end of every frame, including the root's frame, where
nothing was appended (the root has no parent) and where the children have
restored the accumulator to the empty string — on every trie the root frame
pops an empty `std::string`, which is undefined behaviour in C++. -/
theorem items_pop_empty_bug (V : Type) (t : Trie V) : t.itemsPopSafe = false := by
  unfold Trie.itemsPopSafe
  cases hr : t.root with
  | mk cs v k =>
    have h1 := itemsSimList_key cs ([] : List Char)
    simp [itemsSim, h1]

theorem items_pop_empty_bug_witness :
    (emptyTrie Nat catAlphabet).itemsPopSafe = false :=
  items_pop_empty_bug Nat (emptyTrie Nat catAlphabet)

end TrieH
